import Mathlib

/-!
Verification of the command-execution engine of keyway-mcp
(`src/tools/inject-run.ts`): multi-encoding secret redaction, bounded
truncation of captured output, timeout capping, validation, and result
assembly.

Strings are modelled at two levels:
* `List Char` (Unicode scalar values) for the redaction and truncation
  passes operating on decoded text;
* `List Nat` (UTF-16 code units) where JavaScript's code-unit-level
  `slice` semantics matter (surrogate pairs).
-/

namespace KeywayMCP

/-! ## Constants from inject-run.ts -/

/-- The fixed redaction marker `***REDACTED***` (line 30). -/
def redactionMarker : List Char :=
  ['*', '*', '*', 'R', 'E', 'D', 'A', 'C', 'T', 'E', 'D', '*', '*', '*']

/-- The literal `TRUNCATION_MESSAGE = '\n\n[Output truncated - exceeded 1MB limit]'` (line 15). -/
def TRUNCATION_MESSAGE : List Char :=
  ['\n', '\n', '[', 'O', 'u', 't', 'p', 'u', 't', ' ', 't', 'r', 'u', 'n', 'c',
   'a', 't', 'e', 'd', ' ', '-', ' ', 'e', 'x', 'c', 'e', 'e', 'd', 'e', 'd',
   ' ', '1', 'M', 'B', ' ', 'l', 'i', 'm', 'i', 't', ']']

/-- The constant `MAX_OUTPUT_BYTES = 1024 * 1024` (line 14). -/
def MAX_OUTPUT_BYTES : Nat := 1024 * 1024

/-- The constant `DEFAULT_TIMEOUT_MS = 300000` (line 13). -/
def DEFAULT_TIMEOUT_MS : Int := 300000

/-! ## UTF-8 byte accounting (`Buffer.byteLength(text, 'utf8')`) -/

/-- UTF-8 encoding of one Unicode scalar value, as a list of bytes. -/
def utf8Bytes (c : Char) : List Nat :=
  let n := c.toNat
  if n < 0x80 then [n]
  else if n < 0x800 then [0xC0 + n / 0x40, 0x80 + n % 0x40]
  else if n < 0x10000 then
    [0xE0 + n / 0x1000, 0x80 + n / 0x40 % 0x40, 0x80 + n % 0x40]
  else
    [0xF0 + n / 0x40000, 0x80 + n / 0x1000 % 0x40, 0x80 + n / 0x40 % 0x40,
     0x80 + n % 0x40]

/-- UTF-8 byte length of a scalar-value string (`Buffer.byteLength`). -/
def byteLength (s : List Char) : Nat := (s.map fun c => (utf8Bytes c).length).sum

/-! ## `String.prototype.replaceAll` with a string pattern

Greedy left-to-right scan replacing every non-overlapping occurrence of
`p` by `r`; an inserted replacement is not rescanned.  The recursion
consumes `p.length ≥ 1` characters on a match, so it is presented with a
fuel argument (initialised to the string length, which always suffices)
to keep the definition structurally recursive and kernel-evaluable. -/

def replaceAllAux (p r : List Char) : Nat → List Char → List Char
  | _, [] => if p = [] then r else []
  | 0, s => s
  | fuel + 1, c :: t =>
    if p ≠ [] ∧ p.isPrefixOf (c :: t) then
      r ++ replaceAllAux p r fuel (t.drop (p.length - 1))
    else if p = [] then
      r ++ (c :: replaceAllAux p r fuel t)
    else
      c :: replaceAllAux p r fuel t

/-- JavaScript `s.replaceAll(p, r)` for a string pattern `p`. -/
def replaceAll (p r s : List Char) : List Char := replaceAllAux p r s.length s

/-! ## `encodeURIComponent` -/

/-- Characters that `encodeURIComponent` leaves unescaped:
`A-Z a-z 0-9 - _ . ! ~ * ' ( )`. -/
def isUriUnreserved (c : Char) : Bool :=
  (0x41 ≤ c.toNat && c.toNat ≤ 0x5A) || (0x61 ≤ c.toNat && c.toNat ≤ 0x7A) ||
  (0x30 ≤ c.toNat && c.toNat ≤ 0x39) ||
  ['-', '_', '.', '!', '~', '*', Char.ofNat 39, '(', ')'].contains c

/-- Uppercase hexadecimal digit. -/
def hexDigit (n : Nat) : Char :=
  ['0', '1', '2', '3', '4', '5', '6', '7', '8', '9',
   'A', 'B', 'C', 'D', 'E', 'F'].getD n '0'

/-- Percent-escape of a single byte, e.g. `%2F`. -/
def percentEncodeByte (b : Nat) : List Char := ['%', hexDigit (b / 16), hexDigit (b % 16)]

/-- JavaScript `encodeURIComponent(value)`: unreserved characters pass through,
every other character is percent-escaped byte-by-byte (UTF-8). -/
def encodeURIComponent (s : List Char) : List Char :=
  s.flatMap fun c =>
    if isUriUnreserved c then [c] else (utf8Bytes c).flatMap percentEncodeByte

/-! ## `Buffer.from(value).toString('base64')` -/

/-- The standard base64 alphabet. -/
def base64Alphabet : List Char :=
  ['A', 'B', 'C', 'D', 'E', 'F', 'G', 'H', 'I', 'J', 'K', 'L', 'M',
   'N', 'O', 'P', 'Q', 'R', 'S', 'T', 'U', 'V', 'W', 'X', 'Y', 'Z',
   'a', 'b', 'c', 'd', 'e', 'f', 'g', 'h', 'i', 'j', 'k', 'l', 'm',
   'n', 'o', 'p', 'q', 'r', 's', 't', 'u', 'v', 'w', 'x', 'y', 'z',
   '0', '1', '2', '3', '4', '5', '6', '7', '8', '9', '+', '/']

/-- Base64 digit for a 6-bit value. -/
def b64Char (n : Nat) : Char := base64Alphabet.getD n 'A'

/-- Standard base64 of a byte list, with `=` padding. -/
def base64Chunks : List Nat → List Char
  | [] => []
  | [b1] => [b64Char (b1 / 4), b64Char (b1 % 4 * 16), '=', '=']
  | [b1, b2] => [b64Char (b1 / 4), b64Char (b1 % 4 * 16 + b2 / 16),
                 b64Char (b2 % 16 * 4), '=']
  | b1 :: b2 :: b3 :: rest =>
    b64Char (b1 / 4) :: b64Char (b1 % 4 * 16 + b2 / 16) ::
    b64Char (b2 % 16 * 4 + b3 / 64) :: b64Char (b3 % 64) :: base64Chunks rest

/-- Node `Buffer.from(value).toString('base64')`: base64 of the UTF-8 bytes. -/
def base64Encode (s : List Char) : List Char := base64Chunks (s.flatMap utf8Bytes)

/-! ## `maskSecrets` (lines 21-55) -/

/-- The secret mapping produced by `parseEnvContent(content)`: secret
name to secret value, keys unique, iterated in insertion order
(`Object.values`). -/
abbrev SecretMap := List (List Char × List Char)

/-- Loop body of `maskSecrets` for one secret value, generalised over
the two encoding steps: each encoder returns `none` when it throws, and
the corresponding `catch {}` block then skips only that encoding
(lines 26-52). -/
def maskValueWith (e1 e2 : List Char → Option (List Char))
    (masked value : List Char) : List Char :=
  if value = [] then masked
  else
    let m1 := replaceAll value redactionMarker masked
    if 4 ≤ value.length then
      let m2 :=
        match e1 value with
        | some u => if u ≠ value then replaceAll u redactionMarker m1 else m1
        | none => m1
      match e2 value with
      | some b => replaceAll b redactionMarker m2
      | none => m2
    else m1

/-- The URL encoder of line 36; total on scalar-value strings. -/
def urlEncoder (v : List Char) : Option (List Char) := some (encodeURIComponent v)

/-- The base64 encoder of line 46; total on scalar-value strings. -/
def base64Encoder (v : List Char) : Option (List Char) := some (base64Encode v)

/-- Loop body of `maskSecrets` for one secret value with the concrete
encoders of the source. -/
def maskValue : List Char → List Char → List Char :=
  maskValueWith urlEncoder base64Encoder

/-- The function `maskSecrets(text, secrets)` generalised over the encoders. -/
def maskSecretsWith (e1 e2 : List Char → Option (List Char))
    (text : List Char) (secrets : SecretMap) : List Char :=
  if text = [] then text
  else (secrets.map Prod.snd).foldl (maskValueWith e1 e2) text

/-- The function `maskSecrets(text, secrets)` (lines 21-55). -/
def maskSecrets (text : List Char) (secrets : SecretMap) : List Char :=
  maskSecretsWith urlEncoder base64Encoder text secrets

/-- The sequence of patterns that the loop body replaces (each by the
redaction marker) for one secret value, in source order: the literal
value; for values of length at least 4 also the URL-encoded form (when
it differs from the value) and the base64-encoded form. -/
def passes (value : List Char) : List (List Char) :=
  if value = [] then []
  else
    [value] ++
      (if 4 ≤ value.length then
        (if encodeURIComponent value ≠ value then [encodeURIComponent value] else []) ++
          [base64Encode value]
      else [])

/-- Apply a sequence of patterns, each replaced by the redaction marker. -/
def applyPasses (m : List Char) (l : List (List Char)) : List Char :=
  l.foldl (fun acc p => replaceAll p redactionMarker acc) m

/-- The patterns replaced by the loop body for one secret value, with
the encoding steps generalised as in `maskValueWith`. -/
def passesWith (e1 e2 : List Char → Option (List Char)) (value : List Char) :
    List (List Char) :=
  if value = [] then []
  else
    [value] ++
      (if 4 ≤ value.length then
        (match e1 value with
         | some u => if u ≠ value then [u] else []
         | none => []) ++
        (match e2 value with
         | some b => [b]
         | none => [])
      else [])

/-- Two secret values have character-disjoint pattern sets: no pattern
replaced for one shares a character with a pattern replaced for the
other. -/
def PatternsDisjoint (v w : List Char) : Prop :=
  ∀ p ∈ passes v, ∀ q ∈ passes w, ∀ c ∈ p, c ∉ q

instance (v w : List Char) : Decidable (PatternsDisjoint v w) :=
  inferInstanceAs (Decidable (∀ p ∈ passes v, ∀ q ∈ passes w, ∀ c ∈ p, c ∉ q))

/-- No pattern replaced for the value shares a character with the
redaction marker. -/
def MarkerDisjointPasses (v : List Char) : Prop :=
  ∀ p ∈ passes v, ∀ c ∈ p, c ∉ redactionMarker

instance (v : List Char) : Decidable (MarkerDisjointPasses v) :=
  inferInstanceAs (Decidable (∀ p ∈ passes v, ∀ c ∈ p, c ∉ redactionMarker))

/-! ## `truncateOutput` (lines 60-76)

The while loop removes 1000 characters from the end until the byte
length fits within `maxBytes - byteLength TRUNCATION_MESSAGE` (natural
subtraction: at the only call site `maxBytes` exceeds the notice
length).  Each iteration shortens a nonempty string, so `t.length` is a
sufficient fuel bound keeping the loop structurally recursive. -/

def truncLoopAux (limit : Nat) : Nat → List Char → List Char
  | 0, t => t
  | fuel + 1, t =>
    if limit < byteLength t then truncLoopAux limit fuel (t.take (t.length - 1000))
    else t

/-- The shrink loop of `truncateOutput` (lines 67-73). -/
def truncLoop (limit : Nat) (t : List Char) : List Char := truncLoopAux limit t.length t

/-- The function `truncateOutput(text, maxBytes)` (lines 60-76): the returned text
and the `truncated` flag. -/
def truncateOutput (text : List Char) (maxBytes : Nat) : List Char × Bool :=
  if byteLength text ≤ maxBytes then (text, false)
  else (truncLoop (maxBytes - byteLength TRUNCATION_MESSAGE) text ++ TRUNCATION_MESSAGE, true)

/-- Claim-side definition following the spec's words for the truncation
pass: return the largest prefix of the text whose byte length fits
within `maxBytes` minus the byte length of the truncation notice, with
the notice appended.  Used only to compare `truncateOutput` against the
specification. -/
def specTruncateOutput (text : List Char) (maxBytes : Nat) : List Char × Bool :=
  if byteLength text ≤ maxBytes then (text, false)
  else
    (text.take (Nat.findGreatest
        (fun k => byteLength (text.take k) ≤ maxBytes - byteLength TRUNCATION_MESSAGE)
        text.length) ++ TRUNCATION_MESSAGE, true)

/-! ## UTF-16 code-unit model of `truncateOutput`

JavaScript strings are sequences of UTF-16 code units and
`truncated.slice(0, -1000)` removes 1000 code units.  This model makes
that visible; `byteLength16` mirrors Node's `Buffer.byteLength`, which
converts an unpaired surrogate to U+FFFD (3 bytes). -/

/-- High-surrogate code unit (U+D800..U+DBFF). -/
def isHighSurrogate (u : Nat) : Bool := 0xD800 ≤ u && u ≤ 0xDBFF

/-- Low-surrogate code unit (U+DC00..U+DFFF). -/
def isLowSurrogate (u : Nat) : Bool := 0xDC00 ≤ u && u ≤ 0xDFFF

/-- Node `Buffer.byteLength` of a UTF-16 code-unit sequence: a surrogate pair
takes 4 bytes, an unpaired surrogate is encoded as U+FFFD (3 bytes). -/
def byteLength16 : List Nat → Nat
  | [] => 0
  | u :: rest =>
    if u < 0x80 then 1 + byteLength16 rest
    else if u < 0x800 then 2 + byteLength16 rest
    else if isHighSurrogate u then
      match rest with
      | [] => 3
      | l :: rest' =>
        if isLowSurrogate l then 4 + byteLength16 rest'
        else 3 + byteLength16 (l :: rest')
    else 3 + byteLength16 rest

/-- The truncation notice as UTF-16 code units (all ASCII). -/
def TRUNCATION_MESSAGE16 : List Nat := TRUNCATION_MESSAGE.map Char.toNat

/-- The shrink loop of `truncateOutput` on code units (fuel as in
`truncLoopAux`). -/
def truncLoop16Aux (limit : Nat) : Nat → List Nat → List Nat
  | 0, t => t
  | fuel + 1, t =>
    if limit < byteLength16 t then truncLoop16Aux limit fuel (t.take (t.length - 1000))
    else t

/-- The shrink loop of `truncateOutput` on code units. -/
def truncLoop16 (limit : Nat) (t : List Nat) : List Nat := truncLoop16Aux limit t.length t

/-- The function `truncateOutput(text, maxBytes)` on UTF-16 code units, where
`slice(0, -1000)` drops code units, not characters. -/
def truncateOutput16 (text : List Nat) (maxBytes : Nat) : List Nat × Bool :=
  if byteLength16 text ≤ maxBytes then (text, false)
  else (truncLoop16 (maxBytes - byteLength16 TRUNCATION_MESSAGE16) text ++ TRUNCATION_MESSAGE16, true)

/-- UTF-16 code units of a run of `M` copies of U+1F600 (😀): `M`
surrogate pairs `D83D DE00`. -/
def emojiUnits (M : Nat) : List Nat :=
  (List.replicate M ([0xD83D, 0xDE00] : List Nat)).flatten

/-- Strict UTF-16 decoding: fails (returns `none`) exactly when the
sequence contains an unpaired surrogate. -/
def utf16DecodeStrict : List Nat → Option (List Char)
  | [] => some []
  | u :: rest =>
    if isHighSurrogate u then
      match rest with
      | [] => none
      | l :: rest' =>
        if isLowSurrogate l then
          match utf16DecodeStrict rest' with
          | some cs => some (Char.ofNat (0x10000 + (u - 0xD800) * 0x400 + (l - 0xDC00)) :: cs)
          | none => none
        else none
    else if isLowSurrogate u then none
    else
      match utf16DecodeStrict rest with
      | some cs => some (Char.ofNat u :: cs)
      | none => none

/-! ## injectRun: validation, defaults, timeout cap, result assembly -/

/-- Line 95, `Math.min(args.timeout || DEFAULT_TIMEOUT_MS, DEFAULT_TIMEOUT_MS)`
(line 95).  JavaScript `||` yields the right operand when the left is
falsy, so a present-but-zero timeout also selects the default. -/
def effectiveTimeout (timeout : Option Int) : Int :=
  min
    (match timeout with
     | none => DEFAULT_TIMEOUT_MS
     | some t => if t = 0 then DEFAULT_TIMEOUT_MS else t)
    DEFAULT_TIMEOUT_MS

/-- Claim-side formula for the effective timeout:
`min(timeoutMs ?? defaultTimeoutMs, hardTimeoutCeilingMs)` with nullish
coalescing, as the spec states it. -/
def specEffectiveTimeout (timeout : Option Int) : Int :=
  min (timeout.getD DEFAULT_TIMEOUT_MS) DEFAULT_TIMEOUT_MS

/-- The default environment identifier `'development'`. -/
def defaultEnvironment : List Char := ['d', 'e', 'v', 'e', 'l', 'o', 'p', 'm', 'e', 'n', 't']

/-- Line 94, `args.environment || 'development'`: `||` yields the
default when the argument is absent or the empty string (falsy). -/
def effectiveEnvironment (environment : Option (List Char)) : List Char :=
  match environment with
  | none => defaultEnvironment
  | some e => if e = [] then defaultEnvironment else e

/-- ECMAScript whitespace and line terminators removed by
`String.prototype.trim`. -/
def isJsWhitespace (c : Char) : Bool :=
  [9, 10, 11, 12, 13, 32, 0xA0, 0x1680, 0x2000, 0x2001, 0x2002, 0x2003, 0x2004,
   0x2005, 0x2006, 0x2007, 0x2008, 0x2009, 0x200A, 0x2028, 0x2029, 0x202F,
   0x205F, 0x3000, 0xFEFF].contains c.toNat

/-- JavaScript `command.trim()`. -/
def jsTrim (s : List Char) : List Char :=
  ((s.dropWhile isJsWhitespace).reverse.dropWhile isJsWhitespace).reverse

/-- The externally observable steps of `injectRun`, in source order. -/
inductive Effect where
  | validationError
  | getToken
  | getRepository
  | pullSecrets
  | spawnChild
deriving DecidableEq

/-- Control flow of `injectRun` lines 84-117: an empty or
whitespace-only command returns the validation error synchronously,
before the token read (line 92), the secret fetch (line 98) and the
spawn (line 112); otherwise those steps run in order. -/
def injectRunEffects (command : List Char) : List Effect :=
  if command = [] ∨ jsTrim command = [] then [Effect.validationError]
  else [Effect.getToken, Effect.getRepository, Effect.pullSecrets, Effect.spawnChild]

/-- The value resolved by the promise in the `close` handler
(lines 105-160). -/
structure ExecutionResult where
  exitCode : Int
  stdout : List Char
  stderr : List Char
  stdoutTruncated : Bool
  stderrTruncated : Bool
deriving DecidableEq

/-- The `close` handler (lines 146-160): truncate then mask each
captured stream; a `null` exit code (signal termination) becomes 1. -/
def closeResult (code : Option Int) (stdout stderr : List Char)
    (stdoutBytes stderrBytes : Nat) (secrets : SecretMap) : ExecutionResult :=
  { exitCode := code.getD 1
    stdout := maskSecrets (truncateOutput stdout MAX_OUTPUT_BYTES).1 secrets
    stderr := maskSecrets (truncateOutput stderr MAX_OUTPUT_BYTES).1 secrets
    stdoutTruncated := (truncateOutput stdout MAX_OUTPUT_BYTES).2 || decide (MAX_OUTPUT_BYTES ≤ stdoutBytes)
    stderrTruncated := (truncateOutput stderr MAX_OUTPUT_BYTES).2 || decide (MAX_OUTPUT_BYTES ≤ stderrBytes) }

/-- The caller-facing response (lines 168-194): `warnings` omitted, the
fields every claim is about are kept. -/
structure ToolResponse where
  exitCode : Int
  stdout : List Char
  stderr : List Char
  secretsInjected : Nat
  isError : Bool
deriving DecidableEq

/-- Response assembly (lines 168-194): `secretsInjected` is
`Object.keys(secrets).length` and `isError` is `exitCode !== 0`. -/
def assembleResponse (result : ExecutionResult) (secrets : SecretMap) : ToolResponse :=
  { exitCode := result.exitCode
    stdout := result.stdout
    stderr := result.stderr
    secretsInjected := secrets.length
    isError := decide (result.exitCode ≠ 0) }

/-! ## Lemmas: basic facts -/

theorem redactionMarker_ne_nil : redactionMarker ≠ [] := by decide

/-- Bridge between the boolean `isPrefixOf` used in the embedding and
the `IsPrefix` relation. -/
theorem isPrefixOf_eq {l1 l2 : List Char} : l1.isPrefixOf l2 = true ↔ l1 <+: l2 :=
  List.isPrefixOf_iff_prefix

/-- Taking an initial segment yields an initial segment. -/
theorem prefix_take (n : Nat) (l : List Char) : l.take n <+: l :=
  List.take_prefix n l

/-- A prefix of `r` sharing no character with `r` is empty. -/
theorem eq_nil_of_prefix_disjoint {w r : List Char} (hd : ∀ c ∈ w, c ∉ r)
    (h : w <+: r) : w = [] := by
  match w with
  | [] => rfl
  | c :: w' =>
    exfalso
    obtain ⟨t, ht⟩ := h
    exact hd c (by simp) (by rw [← ht]; simp)

/-- An occurrence of a nonempty `v` in `a ++ x` lies in `x` or uses a
character of `a`. -/
theorem infix_append_cases {v a x : List Char} (hv : v ≠ []) (h : v <:+: a ++ x) :
    v <:+: x ∨ ∃ c ∈ v, c ∈ a := by
  induction a with
  | nil => exact Or.inl (by simpa using h)
  | cons b a' ih =>
    rcases List.infix_cons_iff.mp (by simpa using h) with hpre | hinf
    · right
      match v, hv with
      | v0 :: v', _ =>
        obtain ⟨hv0, -⟩ := List.cons_prefix_cons.mp hpre
        exact ⟨v0, by simp, by simp [hv0]⟩
    · rcases ih hinf with h1 | ⟨c, hc1, hc2⟩
      · exact Or.inl h1
      · exact Or.inr ⟨c, hc1, by simp [hc2]⟩

/-- A nonempty prefix of `r ++ X` starts with a character of nonempty `r`. -/
theorem prefix_append_head {w r X : List Char} (hr : r ≠ []) (h : w <+: r ++ X) :
    w = [] ∨ ∃ c ∈ w, c ∈ r := by
  match w with
  | [] => exact Or.inl rfl
  | c :: w' =>
    right
    match r, hr with
    | r0 :: r'', _ =>
      obtain ⟨h0, -⟩ := List.cons_prefix_cons.mp (by simpa using h)
      exact ⟨c, by simp, by simp [h0]⟩

/-! ## Lemmas: `replaceAll` unfolding -/

theorem replaceAllAux_nil (p r : List Char) (fuel : Nat) :
    replaceAllAux p r fuel [] = if p = [] then r else [] := by
  cases fuel <;> rfl

theorem replaceAllAux_cons (p r : List Char) (fuel : Nat) (c : Char) (t : List Char) :
    replaceAllAux p r (fuel + 1) (c :: t) =
      if p ≠ [] ∧ p.isPrefixOf (c :: t) then
        r ++ replaceAllAux p r fuel (t.drop (p.length - 1))
      else if p = [] then r ++ (c :: replaceAllAux p r fuel t)
      else c :: replaceAllAux p r fuel t := rfl

theorem replaceAllAux_congr (p r : List Char) :
    ∀ (f1 f2 : Nat) (s : List Char), s.length ≤ f1 → s.length ≤ f2 →
      replaceAllAux p r f1 s = replaceAllAux p r f2 s := by
  intro f1
  induction f1 with
  | zero =>
    intro f2 s h1 h2
    have hs : s = [] := List.eq_nil_of_length_eq_zero (Nat.le_zero.mp h1)
    subst hs
    rw [replaceAllAux_nil, replaceAllAux_nil]
  | succ f ih =>
    intro f2 s h1 h2
    match s, f2, h2 with
    | [], _, _ => rw [replaceAllAux_nil, replaceAllAux_nil]
    | c :: t, 0, h2 => exact absurd h2 (by simp)
    | c :: t, g + 1, h2 =>
      simp only [List.length_cons, Nat.add_le_add_iff_right] at h1 h2
      rw [replaceAllAux_cons, replaceAllAux_cons]
      have hdrop : (t.drop (p.length - 1)).length ≤ t.length := by
        simp [List.length_drop]
      split_ifs with hm hp
      · rw [ih g (t.drop (p.length - 1)) (le_trans hdrop h1) (le_trans hdrop h2)]
      · rw [ih g t h1 h2]
      · rw [ih g t h1 h2]

theorem replaceAll_nil (p r : List Char) :
    replaceAll p r [] = if p = [] then r else [] := by
  simp [replaceAll, replaceAllAux_nil]

theorem replaceAll_pos {p : List Char} (r : List Char) {c : Char} {t : List Char}
    (hp : p ≠ []) (hm : p.isPrefixOf (c :: t)) :
    replaceAll p r (c :: t) = r ++ replaceAll p r (t.drop (p.length - 1)) := by
  show replaceAllAux p r (t.length + 1) (c :: t) = _
  rw [replaceAllAux_cons, if_pos ⟨hp, hm⟩, replaceAll,
    replaceAllAux_congr p r t.length (t.drop (p.length - 1)).length _
      (by simp [List.length_drop]) le_rfl]

theorem replaceAll_empty_pat (r : List Char) (c : Char) (t : List Char) :
    replaceAll [] r (c :: t) = r ++ (c :: replaceAll [] r t) := by
  show replaceAllAux [] r (t.length + 1) (c :: t) = _
  rw [replaceAllAux_cons]
  simp [replaceAll]

theorem replaceAll_neg {p : List Char} (r : List Char) {c : Char} {t : List Char}
    (hp : p ≠ []) (hm : ¬ p.isPrefixOf (c :: t)) :
    replaceAll p r (c :: t) = c :: replaceAll p r t := by
  show replaceAllAux p r (t.length + 1) (c :: t) = _
  rw [replaceAllAux_cons, if_neg (by simp [hm]), if_neg hp]
  rfl

/-! ## Lemmas: occurrences and `replaceAll` -/

/-- Any prefix of the output of `replaceAll` that shares no character
with the (nonempty) replacement is a prefix of the input. -/
theorem replaceAllAux_prefix_reflect {p r : List Char} (hr : r ≠ []) :
    ∀ (fuel : Nat) (s w : List Char), s.length ≤ fuel → (∀ c ∈ w, c ∉ r) →
      w <+: replaceAllAux p r fuel s → w <+: s := by
  intro fuel
  induction fuel with
  | zero =>
    intro s w hlen hd h
    have hs : s = [] := List.eq_nil_of_length_eq_zero (Nat.le_zero.mp hlen)
    subst hs
    rw [replaceAllAux_nil] at h
    split_ifs at h
    · rw [eq_nil_of_prefix_disjoint hd h]
    · rw [List.prefix_nil.mp h]
  | succ fuel ih =>
    intro s w hlen hd h
    match s with
    | [] =>
      rw [replaceAllAux_nil] at h
      split_ifs at h
      · rw [eq_nil_of_prefix_disjoint hd h]
      · rw [List.prefix_nil.mp h]
    | c :: t =>
      simp only [List.length_cons, Nat.add_le_add_iff_right] at hlen
      rw [replaceAllAux_cons] at h
      split_ifs at h with h1 h2
      · rcases prefix_append_head hr h with hnil | ⟨c', hc1, hc2⟩
        · rw [hnil]; exact List.nil_prefix
        · exact absurd hc2 (hd c' hc1)
      · rcases prefix_append_head hr h with hnil | ⟨c', hc1, hc2⟩
        · rw [hnil]; exact List.nil_prefix
        · exact absurd hc2 (hd c' hc1)
      · match w, h with
        | [], _ => exact List.nil_prefix
        | c' :: w', h =>
          obtain ⟨hc, hw'⟩ := List.cons_prefix_cons.mp h
          have hw't : w' <+: t :=
            ih t w' hlen (fun d hdm => hd d (by simp [hdm])) hw'
          exact List.cons_prefix_cons.mpr ⟨hc, hw't⟩

/-- A pass of `replaceAll` with replacement `r` creates no occurrence of a
nonempty string `v` that shares no character with `r`. -/
theorem replaceAllAux_not_occ {p r v : List Char} (hr : r ≠ []) (hv : v ≠ [])
    (hd : ∀ c ∈ v, c ∉ r) :
    ∀ (fuel : Nat) (s : List Char), s.length ≤ fuel →
      ¬ v <:+: s → ¬ v <:+: replaceAllAux p r fuel s := by
  intro fuel
  induction fuel with
  | zero =>
    intro s hlen hs
    have h0 : s = [] := List.eq_nil_of_length_eq_zero (Nat.le_zero.mp hlen)
    subst h0
    rw [replaceAllAux_nil]
    split_ifs
    · intro h
      rcases infix_append_cases (a := r) (x := []) hv (by simpa using h) with
        h' | ⟨c, hc1, hc2⟩
      · exact hv (List.infix_nil.mp h')
      · exact hd c hc1 hc2
    · simpa using hs
  | succ fuel ih =>
    intro s hlen hs
    match s with
    | [] =>
      rw [replaceAllAux_nil]
      split_ifs
      · intro h
        rcases infix_append_cases (a := r) (x := []) hv (by simpa using h) with
          h' | ⟨c, hc1, hc2⟩
        · exact hv (List.infix_nil.mp h')
        · exact hd c hc1 hc2
      · simpa using hs
    | c :: t =>
      simp only [List.length_cons, Nat.add_le_add_iff_right] at hlen
      have hst : ¬ v <:+: t := fun h => hs (h.trans (List.suffix_cons c t).isInfix)
      rw [replaceAllAux_cons]
      split_ifs with h1 h2
      · intro h
        rcases infix_append_cases hv h with h' | ⟨c', hc1, hc2⟩
        · have hdrop : ¬ v <:+: t.drop (p.length - 1) := fun hx =>
            hst (hx.trans (List.drop_suffix _ t).isInfix)
          exact ih (t.drop (p.length - 1))
            (le_trans (by simp [List.length_drop]) hlen) hdrop h'
        · exact hd c' hc1 hc2
      · intro h
        rcases infix_append_cases hv h with h' | ⟨c', hc1, hc2⟩
        · rcases List.infix_cons_iff.mp h' with hpre | hinf
          · match v, hv, hpre with
            | v0 :: v', _, hpre =>
              obtain ⟨hc, hw'⟩ := List.cons_prefix_cons.mp hpre
              have : v' <+: t :=
                replaceAllAux_prefix_reflect hr fuel t v' hlen
                  (fun d hdm => hd d (by simp [hdm])) hw'
              exact hs (List.IsPrefix.isInfix (List.cons_prefix_cons.mpr ⟨hc, this⟩))
          · exact ih t hlen hst hinf
        · exact hd c' hc1 hc2
      · intro h
        rcases List.infix_cons_iff.mp h with hpre | hinf
        · match v, hv, hpre with
          | v0 :: v', _, hpre =>
            obtain ⟨hc, hw'⟩ := List.cons_prefix_cons.mp hpre
            have : v' <+: t :=
              replaceAllAux_prefix_reflect hr fuel t v' hlen
                (fun d hdm => hd d (by simp [hdm])) hw'
            exact hs (List.IsPrefix.isInfix (List.cons_prefix_cons.mpr ⟨hc, this⟩))
        · exact ih t hlen hst hinf

/-- After its own pass, a nonempty pattern sharing no character with the
(nonempty) replacement no longer occurs. -/
theorem replaceAllAux_self_not_occ {r v : List Char} (hr : r ≠ []) (hv : v ≠ [])
    (hd : ∀ c ∈ v, c ∉ r) :
    ∀ (fuel : Nat) (s : List Char), s.length ≤ fuel →
      ¬ v <:+: replaceAllAux v r fuel s := by
  intro fuel
  induction fuel with
  | zero =>
    intro s hlen
    have h0 : s = [] := List.eq_nil_of_length_eq_zero (Nat.le_zero.mp hlen)
    subst h0
    rw [replaceAllAux_nil, if_neg hv]
    simpa using hv
  | succ fuel ih =>
    intro s hlen
    match s with
    | [] =>
      rw [replaceAllAux_nil, if_neg hv]
      simpa using hv
    | c :: t =>
      simp only [List.length_cons, Nat.add_le_add_iff_right] at hlen
      rw [replaceAllAux_cons]
      by_cases hm : v.isPrefixOf (c :: t)
      · rw [if_pos ⟨hv, hm⟩]
        intro h
        rcases infix_append_cases hv h with h' | ⟨c', hc1, hc2⟩
        · exact ih (t.drop (v.length - 1))
            (le_trans (by simp [List.length_drop]) hlen) h'
        · exact hd c' hc1 hc2
      · rw [if_neg (by simp [hm]), if_neg hv]
        intro h
        rcases List.infix_cons_iff.mp h with hpre | hinf
        · match v, hv, hpre with
          | v0 :: v', _, hpre =>
            obtain ⟨hc, hw'⟩ := List.cons_prefix_cons.mp hpre
            have : v' <+: t :=
              replaceAllAux_prefix_reflect hr fuel t v' hlen
                (fun d hdm => hd d (by simp [hdm])) hw'
            exact hm (isPrefixOf_eq.mpr
              (List.cons_prefix_cons.mpr ⟨hc, this⟩))
        · exact ih t hlen hinf

/-- One pass of `replaceAll` either leaves the text unchanged or leaves
an occurrence of the replacement in it. -/
theorem replaceAllAux_eq_or_marker (p r : List Char) :
    ∀ (fuel : Nat) (s : List Char),
      replaceAllAux p r fuel s = s ∨ r <:+: replaceAllAux p r fuel s := by
  intro fuel
  induction fuel with
  | zero =>
    intro s
    match s with
    | [] =>
      rw [replaceAllAux_nil]
      split_ifs
      · exact Or.inr (List.infix_refl r)
      · exact Or.inl rfl
    | c :: t => exact Or.inl rfl
  | succ fuel ih =>
    intro s
    match s with
    | [] =>
      rw [replaceAllAux_nil]
      split_ifs
      · exact Or.inr (List.infix_refl r)
      · exact Or.inl rfl
    | c :: t =>
      rw [replaceAllAux_cons]
      split_ifs with h1 h2
      · exact Or.inr (List.IsPrefix.isInfix (List.prefix_append r _))
      · exact Or.inr (List.IsPrefix.isInfix (List.prefix_append r _))
      · rcases ih t with he | hm
        · exact Or.inl (by rw [he])
        · exact Or.inr (hm.trans (List.suffix_cons c _).isInfix)

/-- When the nonempty pattern occurs, one pass leaves an occurrence of
the replacement. -/
theorem replaceAllAux_marker_of_occ {p r : List Char} (hp : p ≠ []) :
    ∀ (fuel : Nat) (s : List Char), s.length ≤ fuel →
      p <:+: s → r <:+: replaceAllAux p r fuel s := by
  intro fuel
  induction fuel with
  | zero =>
    intro s hlen hocc
    have h0 : s = [] := List.eq_nil_of_length_eq_zero (Nat.le_zero.mp hlen)
    subst h0
    exact absurd (List.infix_nil.mp hocc) hp
  | succ fuel ih =>
    intro s hlen hocc
    match s with
    | [] => exact absurd (List.infix_nil.mp hocc) hp
    | c :: t =>
      simp only [List.length_cons, Nat.add_le_add_iff_right] at hlen
      rw [replaceAllAux_cons]
      by_cases hm : p.isPrefixOf (c :: t)
      · rw [if_pos ⟨hp, hm⟩]
        exact List.IsPrefix.isInfix (List.prefix_append r _)
      · rw [if_neg (by simp [hm]), if_neg hp]
        rcases List.infix_cons_iff.mp hocc with hpre | hinf
        · exact absurd (isPrefixOf_eq.mpr hpre) hm
        · exact (ih t hlen hinf).trans (List.suffix_cons c _).isInfix

/-- An occurrence of the replacement survives any later pass. -/
theorem replaceAllAux_marker_preserve (p r : List Char) (fuel : Nat) (s : List Char)
    (h : r <:+: s) : r <:+: replaceAllAux p r fuel s := by
  rcases replaceAllAux_eq_or_marker p r fuel s with he | hm
  · rw [he]; exact h
  · exact hm

/-! ## Lemmas: `replaceAll` wrapper corollaries -/

theorem replaceAll_prefix_reflect {p r w : List Char} (hr : r ≠ [])
    (hd : ∀ c ∈ w, c ∉ r) (s : List Char) (h : w <+: replaceAll p r s) : w <+: s :=
  replaceAllAux_prefix_reflect hr s.length s w le_rfl hd h

theorem replaceAll_not_occ {p r v : List Char} (hr : r ≠ []) (hv : v ≠ [])
    (hd : ∀ c ∈ v, c ∉ r) (s : List Char) (hs : ¬ v <:+: s) :
    ¬ v <:+: replaceAll p r s :=
  replaceAllAux_not_occ hr hv hd s.length s le_rfl hs

theorem replaceAll_self_not_occ {r v : List Char} (hr : r ≠ []) (hv : v ≠ [])
    (hd : ∀ c ∈ v, c ∉ r) (s : List Char) : ¬ v <:+: replaceAll v r s :=
  replaceAllAux_self_not_occ hr hv hd s.length s le_rfl

theorem replaceAll_eq_or_marker (p r s : List Char) :
    replaceAll p r s = s ∨ r <:+: replaceAll p r s :=
  replaceAllAux_eq_or_marker p r s.length s

theorem replaceAll_marker_of_occ {p r : List Char} (hp : p ≠ []) (s : List Char)
    (h : p <:+: s) : r <:+: replaceAll p r s :=
  replaceAllAux_marker_of_occ hp s.length s le_rfl h

theorem replaceAll_marker_preserve (p r s : List Char) (h : r <:+: s) :
    r <:+: replaceAll p r s :=
  replaceAllAux_marker_preserve p r s.length s h

/-! ## Lemmas: the loop body as a sequence of passes -/

theorem applyPasses_nil (m : List Char) : applyPasses m [] = m := rfl

theorem applyPasses_cons (m p : List Char) (l : List (List Char)) :
    applyPasses m (p :: l) = applyPasses (replaceAll p redactionMarker m) l := rfl

theorem maskValueWith_eq_applyPasses (e1 e2 : List Char → Option (List Char))
    (m v : List Char) :
    maskValueWith e1 e2 m v = applyPasses m (passesWith e1 e2 v) := by
  unfold maskValueWith passesWith
  by_cases hv : v = []
  · rw [if_pos hv, if_pos hv]; rfl
  · rw [if_neg hv, if_neg hv]
    by_cases hlen : 4 ≤ v.length
    · rw [if_pos hlen, if_pos hlen]
      rcases e1 v with - | u <;> rcases e2 v with - | b <;> simp only
      · rfl
      · rfl
      · by_cases huv : u = v
        · rw [if_neg (by simp [huv]), if_neg (by simp [huv])]; rfl
        · rw [if_pos (by simp [huv]), if_pos (by simp [huv])]; rfl
      · by_cases huv : u = v
        · rw [if_neg (by simp [huv]), if_neg (by simp [huv])]; rfl
        · rw [if_pos (by simp [huv]), if_pos (by simp [huv])]; rfl
    · rw [if_neg hlen, if_neg hlen]; rfl

theorem passes_eq_passesWith (v : List Char) :
    passes v = passesWith urlEncoder base64Encoder v := rfl

theorem maskValue_eq_applyPasses (m v : List Char) :
    maskValue m v = applyPasses m (passes v) :=
  maskValueWith_eq_applyPasses urlEncoder base64Encoder m v

/-- The first pattern replaced for a nonempty value is the value itself. -/
theorem passesWith_of_ne_nil (e1 e2 : List Char → Option (List Char))
    {v : List Char} (hv : v ≠ []) :
    ∃ rest, passesWith e1 e2 v = v :: rest := by
  unfold passesWith
  rw [if_neg hv]
  exact ⟨_, rfl⟩

/-! ## Lemmas: absence and marker facts lifted to pass sequences -/

theorem applyPasses_not_occ {v : List Char} (hv : v ≠ [])
    (hd : ∀ c ∈ v, c ∉ redactionMarker) :
    ∀ (l : List (List Char)) (m : List Char), ¬ v <:+: m → ¬ v <:+: applyPasses m l := by
  intro l
  induction l with
  | nil => intro m hm; exact hm
  | cons p l' ih =>
    intro m hm
    rw [applyPasses_cons]
    exact ih _ (replaceAll_not_occ redactionMarker_ne_nil hv hd m hm)

theorem applyPasses_marker_preserve :
    ∀ (l : List (List Char)) (m : List Char),
      redactionMarker <:+: m → redactionMarker <:+: applyPasses m l := by
  intro l
  induction l with
  | nil => intro m hm; exact hm
  | cons p l' ih =>
    intro m hm
    rw [applyPasses_cons]
    exact ih _ (replaceAll_marker_preserve p redactionMarker m hm)

theorem applyPasses_eq_or_marker :
    ∀ (l : List (List Char)) (m : List Char),
      applyPasses m l = m ∨ redactionMarker <:+: applyPasses m l := by
  intro l
  induction l with
  | nil => intro m; exact Or.inl rfl
  | cons p l' ih =>
    intro m
    rw [applyPasses_cons]
    rcases replaceAll_eq_or_marker p redactionMarker m with he | hmk
    · rw [he]; exact ih m
    · exact Or.inr (applyPasses_marker_preserve l' _ hmk)

/-! ## Lemmas: the loop body `maskValueWith` -/

theorem maskValueWith_self_not_occ (e1 e2 : List Char → Option (List Char))
    {v : List Char} (hv : v ≠ []) (hd : ∀ c ∈ v, c ∉ redactionMarker)
    (m : List Char) : ¬ v <:+: maskValueWith e1 e2 m v := by
  rw [maskValueWith_eq_applyPasses]
  obtain ⟨rest, hrest⟩ := passesWith_of_ne_nil e1 e2 hv
  rw [hrest, applyPasses_cons]
  exact applyPasses_not_occ hv hd rest _
    (replaceAll_self_not_occ redactionMarker_ne_nil hv hd m)

theorem maskValueWith_not_occ (e1 e2 : List Char → Option (List Char))
    {v : List Char} (hv : v ≠ []) (hd : ∀ c ∈ v, c ∉ redactionMarker)
    (m w : List Char) (hm : ¬ v <:+: m) : ¬ v <:+: maskValueWith e1 e2 m w := by
  rw [maskValueWith_eq_applyPasses]
  exact applyPasses_not_occ hv hd _ m hm

theorem maskValueWith_marker_preserve (e1 e2 : List Char → Option (List Char))
    (m w : List Char) (hm : redactionMarker <:+: m) :
    redactionMarker <:+: maskValueWith e1 e2 m w := by
  rw [maskValueWith_eq_applyPasses]
  exact applyPasses_marker_preserve _ m hm

theorem maskValueWith_eq_or_marker (e1 e2 : List Char → Option (List Char))
    (m w : List Char) :
    maskValueWith e1 e2 m w = m ∨ redactionMarker <:+: maskValueWith e1 e2 m w := by
  rw [maskValueWith_eq_applyPasses]
  exact applyPasses_eq_or_marker _ m

theorem maskValueWith_marker_of_occ (e1 e2 : List Char → Option (List Char))
    {v : List Char} (hv : v ≠ []) (m : List Char) (hm : v <:+: m) :
    redactionMarker <:+: maskValueWith e1 e2 m v := by
  rw [maskValueWith_eq_applyPasses]
  obtain ⟨rest, hrest⟩ := passesWith_of_ne_nil e1 e2 hv
  rw [hrest, applyPasses_cons]
  exact applyPasses_marker_preserve rest _
    (replaceAll_marker_of_occ hv m hm)

/-! ## Lemmas: the whole secret loop -/

theorem foldl_maskValueWith_not_occ (e1 e2 : List Char → Option (List Char))
    {v : List Char} (hv : v ≠ []) (hd : ∀ c ∈ v, c ∉ redactionMarker) :
    ∀ (vals : List (List Char)) (t : List Char), ¬ v <:+: t →
      ¬ v <:+: vals.foldl (maskValueWith e1 e2) t := by
  intro vals
  induction vals with
  | nil => intro t ht; exact ht
  | cons w vals' ih =>
    intro t ht
    exact ih _ (maskValueWith_not_occ e1 e2 hv hd t w ht)

theorem foldl_maskValueWith_marker_preserve (e1 e2 : List Char → Option (List Char)) :
    ∀ (vals : List (List Char)) (t : List Char), redactionMarker <:+: t →
      redactionMarker <:+: vals.foldl (maskValueWith e1 e2) t := by
  intro vals
  induction vals with
  | nil => intro t ht; exact ht
  | cons w vals' ih =>
    intro t ht
    exact ih _ (maskValueWith_marker_preserve e1 e2 t w ht)

/-- Redaction of a member value: after the whole loop it no longer
occurs (its own pass removes it; no later pass can recreate it because
every replacement inserts only the marker, which shares no character
with it). -/
theorem foldl_maskValueWith_member_not_occ (e1 e2 : List Char → Option (List Char))
    {v : List Char} (hv : v ≠ []) (hd : ∀ c ∈ v, c ∉ redactionMarker) :
    ∀ (vals : List (List Char)) (t : List Char), v ∈ vals →
      ¬ v <:+: vals.foldl (maskValueWith e1 e2) t := by
  intro vals
  induction vals with
  | nil => intro t hmem; exact absurd hmem (List.not_mem_nil v)
  | cons w vals' ih =>
    intro t hmem
    rcases List.mem_cons.mp hmem with hvw | hv'
    · subst hvw
      exact foldl_maskValueWith_not_occ e1 e2 hv hd vals' _
        (maskValueWith_self_not_occ e1 e2 hv hd t)
    · exact ih _ hv'

/-- Marker presence: when a nonempty member value occurs in the text,
the marker occurs in the loop's output. -/
theorem foldl_maskValueWith_marker_of_member (e1 e2 : List Char → Option (List Char))
    {v : List Char} (hv : v ≠ []) :
    ∀ (vals : List (List Char)) (t : List Char), v ∈ vals →
      (v <:+: t ∨ redactionMarker <:+: t) →
      redactionMarker <:+: vals.foldl (maskValueWith e1 e2) t := by
  intro vals
  induction vals with
  | nil => intro t hmem; exact absurd hmem (List.not_mem_nil v)
  | cons w vals' ih =>
    intro t hmem hocc
    rcases List.mem_cons.mp hmem with hvw | hv'
    · subst hvw
      rcases hocc with hvt | hmk
      · exact foldl_maskValueWith_marker_preserve e1 e2 vals' _
          (maskValueWith_marker_of_occ e1 e2 hv t hvt)
      · exact foldl_maskValueWith_marker_preserve e1 e2 vals' _
          (maskValueWith_marker_preserve e1 e2 t v hmk)
    · rcases hocc with hvt | hmk
      · rcases maskValueWith_eq_or_marker e1 e2 t w with he | hmk'
        · exact ih _ hv' (Or.inl (by rw [he]; exact hvt))
        · exact ih _ hv' (Or.inr hmk')
      · exact ih _ hv' (Or.inr (maskValueWith_marker_preserve e1 e2 t w hmk))

/-! ## Lemmas: the encoders produce nonempty output -/

theorem utf8Bytes_ne_nil (c : Char) : utf8Bytes c ≠ [] := by
  unfold utf8Bytes
  dsimp only
  split_ifs <;> simp

theorem percentEncodeByte_ne_nil (b : Nat) : percentEncodeByte b ≠ [] := by
  simp [percentEncodeByte]

theorem encodeURIComponent_ne_nil {v : List Char} (hv : v ≠ []) :
    encodeURIComponent v ≠ [] := by
  match v with
  | c :: t =>
    unfold encodeURIComponent
    rw [List.flatMap_cons]
    intro h
    obtain ⟨h1, -⟩ := List.append_eq_nil.mp h
    by_cases hu : isUriUnreserved c
    · rw [if_pos hu] at h1; simp at h1
    · rw [if_neg hu] at h1
      match hb : utf8Bytes c with
      | [] => exact utf8Bytes_ne_nil c hb
      | b :: bs =>
        rw [hb, List.flatMap_cons] at h1
        exact percentEncodeByte_ne_nil b (List.append_eq_nil.mp h1).1

theorem base64Chunks_ne_nil {l : List Nat} (hl : l ≠ []) : base64Chunks l ≠ [] := by
  match l with
  | [b1] => simp [base64Chunks]
  | [b1, b2] => simp [base64Chunks]
  | b1 :: b2 :: b3 :: rest => simp [base64Chunks]

theorem base64Encode_ne_nil {v : List Char} (hv : v ≠ []) :
    base64Encode v ≠ [] := by
  match v with
  | c :: t =>
    unfold base64Encode
    apply base64Chunks_ne_nil
    rw [List.flatMap_cons]
    intro h
    exact utf8Bytes_ne_nil c (List.append_eq_nil.mp h).1

/-! ## Lemmas: redaction of the encoded forms by their own pass -/

theorem applyPasses_append (m : List Char) (l1 l2 : List (List Char)) :
    applyPasses m (l1 ++ l2) = applyPasses (applyPasses m l1) l2 := by
  simp [applyPasses, List.foldl_append]

/-- The URL-encoded form of a long value does not occur after the loop
body for that value: when it differs from the value it gets its own
pass, and when it equals the value the literal pass covers it. -/
theorem maskValue_url_not_occ {v : List Char} (hlen : 4 ≤ v.length)
    (hd : ∀ c ∈ encodeURIComponent v, c ∉ redactionMarker) (m : List Char) :
    ¬ encodeURIComponent v <:+: maskValue m v := by
  have hv : v ≠ [] := by
    intro h; subst h; simp at hlen
  have hu : encodeURIComponent v ≠ [] := encodeURIComponent_ne_nil hv
  rw [maskValue_eq_applyPasses]
  unfold passes
  rw [if_neg hv, if_pos hlen]
  by_cases huv : encodeURIComponent v = v
  · rw [if_neg (by simp [huv])]
    rw [show ([v] ++ ([] ++ [base64Encode v])) = v :: [base64Encode v] by simp,
      applyPasses_cons]
    apply applyPasses_not_occ hu hd
    rw [huv] at hu hd ⊢
    exact replaceAll_self_not_occ redactionMarker_ne_nil hu hd m
  · rw [if_pos (by simp [huv])]
    rw [show ([v] ++ ([encodeURIComponent v] ++ [base64Encode v]))
        = v :: encodeURIComponent v :: [base64Encode v] by simp,
      applyPasses_cons, applyPasses_cons]
    apply applyPasses_not_occ hu hd
    exact replaceAll_self_not_occ redactionMarker_ne_nil hu hd _

/-- The base64-encoded form of a long value does not occur after the
loop body for that value: it always gets the last pass. -/
theorem maskValue_base64_not_occ {v : List Char} (hlen : 4 ≤ v.length)
    (hd : ∀ c ∈ base64Encode v, c ∉ redactionMarker) (m : List Char) :
    ¬ base64Encode v <:+: maskValue m v := by
  have hv : v ≠ [] := by
    intro h; subst h; simp at hlen
  have hb : base64Encode v ≠ [] := base64Encode_ne_nil hv
  rw [maskValue_eq_applyPasses]
  unfold passes
  rw [if_neg hv, if_pos hlen]
  rw [show ([v] ++ ((if encodeURIComponent v ≠ v then [encodeURIComponent v] else []) ++
      [base64Encode v]))
      = ([v] ++ (if encodeURIComponent v ≠ v then [encodeURIComponent v] else [])) ++
        [base64Encode v] by simp,
    applyPasses_append]
  rw [show applyPasses (applyPasses m ([v] ++
      (if encodeURIComponent v ≠ v then [encodeURIComponent v] else [])))
      [base64Encode v]
      = replaceAll (base64Encode v) redactionMarker (applyPasses m ([v] ++
        (if encodeURIComponent v ≠ v then [encodeURIComponent v] else []))) from rfl]
  exact replaceAll_self_not_occ redactionMarker_ne_nil hb hd _

/-- Membership variant: a string `x` that the loop body for value `v`
always removes stays absent after the whole loop when `v` is one of the
secret values. -/
theorem foldl_maskValueWith_member_abs (e1 e2 : List Char → Option (List Char))
    {v x : List Char} (hx : x ≠ []) (hd : ∀ c ∈ x, c ∉ redactionMarker)
    (habs : ∀ m : List Char, ¬ x <:+: maskValueWith e1 e2 m v) :
    ∀ (vals : List (List Char)) (t : List Char), v ∈ vals →
      ¬ x <:+: vals.foldl (maskValueWith e1 e2) t := by
  intro vals
  induction vals with
  | nil => intro t hmem; exact absurd hmem (List.not_mem_nil v)
  | cons w vals' ih =>
    intro t hmem
    rcases List.mem_cons.mp hmem with hvw | hv'
    · subst hvw
      exact foldl_maskValueWith_not_occ e1 e2 hx hd vals' _ (habs t)
    · exact ih _ hv'

/-! ## Claim C1 -/

/-- C1 (counterexample): the claim fails as stated.  The secret value
`RED` is non-empty and occurs in the raw text `RED`, yet it still
occurs in the sanitized output, because the replacement inserts the
marker `***REDACTED***`, which itself contains `RED`. -/
theorem C1_redaction_counterexample :
    (['R', 'E', 'D'] : List Char) ≠ [] ∧
    (['R', 'E', 'D'] : List Char) <:+: ['R', 'E', 'D'] ∧
    (['R', 'E', 'D'] : List Char) <:+:
      maskSecrets ['R', 'E', 'D'] [(['K'], ['R', 'E', 'D'])] := by decide

/-- C1 (amended): for every secret value `v` that is non-empty and has
no character in common with the redaction marker `***REDACTED***`, if
`v` occurs anywhere in the captured text then `v` does not occur in the
sanitized output, and the redaction marker occurs in it (every
occurrence is replaced, not just the first). -/
theorem C1_redaction_amended (secrets : SecretMap) (text v : List Char)
    (hmem : v ∈ secrets.map Prod.snd) (hv : v ≠ [])
    (hd : ∀ c ∈ v, c ∉ redactionMarker) (hocc : v <:+: text) :
    ¬ v <:+: maskSecrets text secrets ∧
    redactionMarker <:+: maskSecrets text secrets := by
  have htext : text ≠ [] := by
    intro h; subst h; exact hv (List.infix_nil.mp hocc)
  unfold maskSecrets maskSecretsWith
  rw [if_neg htext]
  exact ⟨foldl_maskValueWith_member_not_occ _ _ hv hd _ text hmem,
    foldl_maskValueWith_marker_of_member _ _ hv _ text hmem (Or.inl hocc)⟩

/-- C1 (witness): concrete instance of the amended claim at the secret
value `hush` and text `say hush`. -/
theorem C1_redaction_witness :
    ((['h', 'u', 's', 'h'] : List Char) ∈
      ([(['K'], ['h', 'u', 's', 'h'])] : SecretMap).map Prod.snd) ∧
    (¬ (['h', 'u', 's', 'h'] : List Char) <:+:
        maskSecrets ['s', 'a', 'y', ' ', 'h', 'u', 's', 'h'] [(['K'], ['h', 'u', 's', 'h'])] ∧
      redactionMarker <:+:
        maskSecrets ['s', 'a', 'y', ' ', 'h', 'u', 's', 'h'] [(['K'], ['h', 'u', 's', 'h'])]) :=
  ⟨by decide, C1_redaction_amended _ _ _ (by decide) (by decide) (by decide) (by decide)⟩

/-! ## Claim C2 -/

/-- C2 (counterexample): the claim fails as stated.  For the length-4
secret value `REDA`, the URL-percent-encoded form is `REDA` itself, it
occurs in the captured text, and it still occurs in the sanitized
output (inside the inserted marker `***REDACTED***`). -/
theorem C2_encoded_redaction_counterexample :
    4 ≤ (['R', 'E', 'D', 'A'] : List Char).length ∧
    encodeURIComponent ['R', 'E', 'D', 'A'] <:+:
      maskSecrets ['R', 'E', 'D', 'A'] [(['K'], ['R', 'E', 'D', 'A'])] := by decide

/-- C2 (amended): for every secret value of length at least 4 whose
URL-percent-encoded and base64-encoded forms share no character with
the redaction marker, neither encoded form occurs in the sanitized
output; moreover, for arbitrary outcomes of the two encoding steps
(including both failing), the literal value (sharing no character with
the marker) is still redacted — an encoding failure never blocks the
literal pass or the passes of other secrets. -/
theorem C2_encoded_redaction_amended (secrets : SecretMap) (text v : List Char)
    (hmem : v ∈ secrets.map Prod.snd) (hlen : 4 ≤ v.length)
    (hdu : ∀ c ∈ encodeURIComponent v, c ∉ redactionMarker)
    (hdb : ∀ c ∈ base64Encode v, c ∉ redactionMarker) :
    (¬ encodeURIComponent v <:+: maskSecrets text secrets ∧
      ¬ base64Encode v <:+: maskSecrets text secrets) ∧
    (∀ e1 e2 : List Char → Option (List Char), (∀ c ∈ v, c ∉ redactionMarker) →
      ¬ v <:+: maskSecretsWith e1 e2 text secrets) := by
  have hv : v ≠ [] := by
    intro h; subst h; simp at hlen
  constructor
  · unfold maskSecrets maskSecretsWith
    by_cases htext : text = []
    · rw [if_pos htext]
      subst htext
      constructor
      · intro h
        exact encodeURIComponent_ne_nil hv (List.infix_nil.mp h)
      · intro h
        exact base64Encode_ne_nil hv (List.infix_nil.mp h)
    · rw [if_neg htext]
      constructor
      · exact foldl_maskValueWith_member_abs urlEncoder base64Encoder
          (encodeURIComponent_ne_nil hv) hdu
          (maskValue_url_not_occ hlen hdu) _ text hmem
      · exact foldl_maskValueWith_member_abs urlEncoder base64Encoder
          (base64Encode_ne_nil hv) hdb
          (maskValue_base64_not_occ hlen hdb) _ text hmem
  · intro e1 e2 hdv
    unfold maskSecretsWith
    by_cases htext : text = []
    · rw [if_pos htext]
      subst htext
      intro h
      exact hv (List.infix_nil.mp h)
    · rw [if_neg htext]
      exact foldl_maskValueWith_member_not_occ e1 e2 hv hdv _ text hmem

/-- C2 (witness): concrete instance of the amended claim at the secret
value `zzzz` (URL-encoded form `zzzz`, base64 form `enp6eg==`, both
marker-disjoint), with the robustness conjunct instantiated at two
always-failing encoders. -/
theorem C2_encoded_redaction_witness :
    ((['z', 'z', 'z', 'z'] : List Char) ∈
      ([(['K'], ['z', 'z', 'z', 'z'])] : SecretMap).map Prod.snd) ∧
    (¬ encodeURIComponent ['z', 'z', 'z', 'z'] <:+:
        maskSecrets ['x', ' ', 'z', 'z', 'z', 'z'] [(['K'], ['z', 'z', 'z', 'z'])] ∧
      ¬ base64Encode ['z', 'z', 'z', 'z'] <:+:
        maskSecrets ['x', ' ', 'z', 'z', 'z', 'z'] [(['K'], ['z', 'z', 'z', 'z'])]) ∧
    ¬ (['z', 'z', 'z', 'z'] : List Char) <:+:
      maskSecretsWith (fun _ => none) (fun _ => none)
        ['x', ' ', 'z', 'z', 'z', 'z'] [(['K'], ['z', 'z', 'z', 'z'])] :=
  ⟨by decide,
    (C2_encoded_redaction_amended _ _ _ (by decide) (by decide) (by decide) (by decide)).1,
    (C2_encoded_redaction_amended _ _ _ (by decide) (by decide) (by decide) (by decide)).2
      (fun _ => none) (fun _ => none) (by decide)⟩

/-! ## Lemmas: commutation of character-disjoint passes -/

/-- A pass whose pattern shares no character with `a` walks through the
prefix `a` unchanged. -/
theorem replaceAll_append_left {q : List Char} (hq : q ≠ [])
    {a : List Char} (hd : ∀ c ∈ q, c ∉ a) (r x : List Char) :
    replaceAll q r (a ++ x) = a ++ replaceAll q r x := by
  induction a with
  | nil => simp
  | cons c a' ih =>
    have hm : ¬ q.isPrefixOf (c :: (a' ++ x)) := by
      intro hpre
      match q, hq, hd, hpre with
      | q0 :: q', _, hd, hpre =>
        obtain ⟨h0, -⟩ := List.cons_prefix_cons.mp (isPrefixOf_eq.mp hpre)
        exact hd q0 (by simp) (by simp [h0])
    rw [List.cons_append, replaceAll_neg r hq hm,
      ih (fun c' hc' => fun hmem => hd c' hc' (by simp [hmem])), List.cons_append]

/-- Step case of the commutation argument: `p` matches at the head. -/
theorem replaceAll_comm_step {r : List Char}
    {p q : List Char} (hp : p ≠ []) (hq : q ≠ [])
    (hqp : ∀ c ∈ q, c ∉ p) (hqr : ∀ c ∈ q, c ∉ r)
    {c : Char} {t : List Char} (hmp : p.isPrefixOf (c :: t))
    (rec : ∀ s' : List Char, s'.length ≤ t.length →
      replaceAll q r (replaceAll p r s') = replaceAll p r (replaceAll q r s')) :
    replaceAll q r (replaceAll p r (c :: t)) =
      replaceAll p r (replaceAll q r (c :: t)) := by
  obtain ⟨s', hs'⟩ := isPrefixOf_eq.mp hmp
  have hlen : p.length + s'.length = t.length + 1 := by
    have := congrArg List.length hs'
    simpa using this
  have hps : 1 ≤ p.length := List.length_pos.mpr hp
  have hlen_s' : s'.length ≤ t.length := by omega
  have hdrop : t.drop (p.length - 1) = s' := by
    have h1 : (c :: t).drop p.length = s' := by rw [← hs', List.drop_left]
    match p, hp with
    | p0 :: p'', _ => simpa using h1
  rw [replaceAll_pos r hp hmp, hdrop, replaceAll_append_left hq hqr r _]
  conv_rhs => rw [← hs']
  rw [replaceAll_append_left hq hqp r s']
  match p, hp, hqp with
  | p0 :: p'', hp, hqp =>
    rw [List.cons_append,
      replaceAll_pos r hp (isPrefixOf_eq.mpr
        ⟨replaceAll q r s', by simp⟩)]
    have hdrop2 : (p'' ++ replaceAll q r s').drop ((p0 :: p'').length - 1) =
        replaceAll q r s' := by
      simp [List.drop_left]
    rw [hdrop2, rec s' hlen_s']

/-- Two passes with the same replacement commute when the two patterns
and the replacement are pairwise character-disjoint. -/
theorem replaceAll_comm {r : List Char} (hr : r ≠ [])
    {p q : List Char} (hp : p ≠ []) (hq : q ≠ [])
    (hpq : ∀ c ∈ p, c ∉ q) (hpr : ∀ c ∈ p, c ∉ r) (hqr : ∀ c ∈ q, c ∉ r) :
    ∀ s : List Char,
      replaceAll q r (replaceAll p r s) = replaceAll p r (replaceAll q r s) := by
  suffices h : ∀ n : Nat, ∀ p q s : List Char, p ≠ [] → q ≠ [] →
      (∀ c ∈ p, c ∉ q) → (∀ c ∈ p, c ∉ r) → (∀ c ∈ q, c ∉ r) → s.length = n →
      replaceAll q r (replaceAll p r s) = replaceAll p r (replaceAll q r s) by
    intro s
    exact h s.length p q s hp hq hpq hpr hqr rfl
  intro n
  induction n using Nat.strong_induction_on with
  | _ n ih =>
    intro p q s hp hq hpq hpr hqr hn
    match s with
    | [] =>
      have e1 : replaceAll p r [] = [] := by rw [replaceAll_nil, if_neg hp]
      have e2 : replaceAll q r [] = [] := by rw [replaceAll_nil, if_neg hq]
      rw [e1, e2, e1]
    | c :: t =>
      have hqp : ∀ c' ∈ q, c' ∉ p := fun c' hcq hcp => hpq c' hcp hcq
      by_cases hmp : p.isPrefixOf (c :: t)
      · exact replaceAll_comm_step hp hq hqp hqr hmp
          (fun s' hle => ih s'.length (by subst hn; simp; omega) p q s' hp hq hpq hpr
            hqr rfl)
      · by_cases hmq : q.isPrefixOf (c :: t)
        · exact (replaceAll_comm_step hq hp hpq hpr hmq
            (fun s' hle => ih s'.length (by subst hn; simp; omega) q p s' hq hp hqp hqr
              hpr rfl)).symm
        · have hnp : ¬ q.isPrefixOf (c :: replaceAll p r t) := by
            intro hpre
            match q, hq, hmq, hpre with
            | q0 :: q', _, hmq, hpre =>
              obtain ⟨h0, hq'⟩ := List.cons_prefix_cons.mp
                (isPrefixOf_eq.mp hpre)
              have : q' <+: t := replaceAll_prefix_reflect hr
                (fun d hdm => hqr d (by simp [hdm])) t hq'
              exact hmq (isPrefixOf_eq.mpr
                (List.cons_prefix_cons.mpr ⟨h0, this⟩))
          have hnq : ¬ p.isPrefixOf (c :: replaceAll q r t) := by
            intro hpre
            match p, hp, hmp, hpre with
            | p0 :: p', _, hmp, hpre =>
              obtain ⟨h0, hp'⟩ := List.cons_prefix_cons.mp
                (isPrefixOf_eq.mp hpre)
              have : p' <+: t := replaceAll_prefix_reflect hr
                (fun d hdm => hpr d (by simp [hdm])) t hp'
              exact hmp (isPrefixOf_eq.mpr
                (List.cons_prefix_cons.mpr ⟨h0, this⟩))
          rw [replaceAll_neg r hp hmp, replaceAll_neg r hq hmq,
            replaceAll_neg r hq hnp, replaceAll_neg r hp hnq,
            ih t.length (by subst hn; simp) p q t hp hq hpq hpr hqr rfl]

/-! ## Lemmas: commutation of whole loop bodies -/

theorem passes_ne_nil {v p : List Char} (hp : p ∈ passes v) : p ≠ [] := by
  by_cases hv : v = []
  · rw [passes, if_pos hv] at hp
    exact absurd hp (List.not_mem_nil p)
  · rw [passes, if_neg hv] at hp
    by_cases hlen : 4 ≤ v.length
    · rw [if_pos hlen] at hp
      by_cases huv : encodeURIComponent v ≠ v
      · rw [if_pos huv] at hp
        simp at hp
        rcases hp with rfl | rfl | rfl
        · exact hv
        · exact encodeURIComponent_ne_nil hv
        · exact base64Encode_ne_nil hv
      · rw [if_neg huv] at hp
        simp at hp
        rcases hp with rfl | rfl
        · exact hv
        · exact base64Encode_ne_nil hv
    · rw [if_neg hlen] at hp
      simp at hp
      subst hp
      exact hv

theorem PatternsDisjoint_symm {v w : List Char} (h : PatternsDisjoint v w) :
    PatternsDisjoint w v :=
  fun q hq p hp c hcq hcp => h p hp q hq c hcp hcq

theorem applyPasses_replaceAll_swap {q : List Char} (hq : q ≠ [])
    (hqM : ∀ c ∈ q, c ∉ redactionMarker) :
    ∀ (l : List (List Char)),
      (∀ p ∈ l, p ≠ [] ∧ (∀ c ∈ p, c ∉ q) ∧ (∀ c ∈ p, c ∉ redactionMarker)) →
      ∀ m, applyPasses (replaceAll q redactionMarker m) l =
        replaceAll q redactionMarker (applyPasses m l) := by
  intro l
  induction l with
  | nil => intro _ m; rfl
  | cons p l' ih =>
    intro hl m
    obtain ⟨hp, hpq, hpM⟩ := hl p (by simp)
    rw [applyPasses_cons, applyPasses_cons,
      ← replaceAll_comm redactionMarker_ne_nil hp hq hpq hpM hqM m]
    exact ih (fun p' hp' => hl p' (by simp [hp'])) _

theorem applyPasses_comm :
    ∀ (l2 l1 : List (List Char)),
      (∀ p ∈ l1, p ≠ [] ∧ ∀ c ∈ p, c ∉ redactionMarker) →
      (∀ q ∈ l2, q ≠ [] ∧ ∀ c ∈ q, c ∉ redactionMarker) →
      (∀ p ∈ l1, ∀ q ∈ l2, ∀ c ∈ p, c ∉ q) →
      ∀ m, applyPasses (applyPasses m l1) l2 = applyPasses (applyPasses m l2) l1 := by
  intro l2
  induction l2 with
  | nil => intro l1 _ _ _ m; rfl
  | cons q l2' ih =>
    intro l1 h1 h2 hcross m
    obtain ⟨hq, hqM⟩ := h2 q (by simp)
    simp only [applyPasses_cons]
    rw [← applyPasses_replaceAll_swap hq hqM l1
      (fun p hp => ⟨(h1 p hp).1, fun c hc => hcross p hp q (by simp) c hc,
        (h1 p hp).2⟩) m]
    exact ih l1 h1 (fun q' hq' => h2 q' (by simp [hq']))
      (fun p hp q' hq' => hcross p hp q' (by simp [hq'])) _

theorem maskValue_comm {v w : List Char} (hvw : PatternsDisjoint v w)
    (hvM : MarkerDisjointPasses v) (hwM : MarkerDisjointPasses w) (m : List Char) :
    maskValue (maskValue m v) w = maskValue (maskValue m w) v := by
  rw [maskValue_eq_applyPasses, maskValue_eq_applyPasses, maskValue_eq_applyPasses,
    maskValue_eq_applyPasses]
  exact applyPasses_comm (passes w) (passes v)
    (fun p hp => ⟨passes_ne_nil hp, hvM p hp⟩)
    (fun q hq => ⟨passes_ne_nil hq, hwM q hq⟩)
    hvw m

theorem foldl_maskValue_perm :
    ∀ {l1 l2 : List (List Char)}, List.Perm l1 l2 →
      l1.Pairwise PatternsDisjoint → (∀ v ∈ l1, MarkerDisjointPasses v) →
      ∀ t, l1.foldl maskValue t = l2.foldl maskValue t := by
  intro l1 l2 hperm
  induction hperm with
  | nil => intro _ _ t; rfl
  | cons x hp ih =>
    intro hpw hM t
    simp only [List.foldl_cons]
    exact ih (List.Pairwise.of_cons hpw) (fun v hv => hM v (by simp [hv])) _
  | swap x y l =>
    intro hpw hM t
    simp only [List.foldl_cons]
    have hyx : PatternsDisjoint y x := (List.pairwise_cons.mp hpw).1 x (by simp)
    rw [maskValue_comm hyx (hM y (by simp)) (hM x (by simp)) t]
  | trans h1 h2 ih1 ih2 =>
    intro hpw hM t
    rw [ih1 hpw hM t,
      ih2 ((h1.pairwise_iff (fun h => PatternsDisjoint_symm h)).mp hpw)
        (fun v hv => hM v (h1.mem_iff.mpr hv)) t]

/-! ## Claim C3 -/

/-- C3 (counterexample): the claim fails as stated.  With text `abc`
and secret values `ab`, `bc`, the two iteration orders give different
sanitized texts (`***REDACTED***c` versus `a***REDACTED***`): replacing
one value destroys the overlapping occurrence of the other. -/
theorem C3_order_counterexample :
    List.Perm (([(['A'], ['a', 'b']), (['B'], ['b', 'c'])] : SecretMap).map Prod.snd)
      (([(['B'], ['b', 'c']), (['A'], ['a', 'b'])] : SecretMap).map Prod.snd) ∧
    maskSecrets ['a', 'b', 'c'] [(['A'], ['a', 'b']), (['B'], ['b', 'c'])] ≠
      maskSecrets ['a', 'b', 'c'] [(['B'], ['b', 'c']), (['A'], ['a', 'b'])] := by
  constructor
  · exact List.Perm.swap _ _ _
  · decide

/-- C3 (amended): the sanitized text is independent of the iteration
order over the secrets provided the replaced patterns (each value plus,
for long values, its URL- and base64-encoded forms) of distinct secrets
are pairwise character-disjoint and none shares a character with the
redaction marker; without that proviso, overlapping matches or
marker-made matches make the result order-dependent. -/
theorem C3_order_amended (text : List Char) (m1 m2 : SecretMap)
    (hperm : List.Perm (m1.map Prod.snd) (m2.map Prod.snd))
    (hpw : (m1.map Prod.snd).Pairwise PatternsDisjoint)
    (hM : ∀ v ∈ m1.map Prod.snd, MarkerDisjointPasses v) :
    maskSecrets text m1 = maskSecrets text m2 := by
  unfold maskSecrets maskSecretsWith
  by_cases htext : text = []
  · rw [if_pos htext, if_pos htext]
  · rw [if_neg htext, if_neg htext]
    exact foldl_maskValue_perm hperm hpw hM text

/-- C3 (witness): concrete instance of the amended claim at the
character-disjoint secret values `ab` and `xy`. -/
theorem C3_order_witness :
    List.Perm (([(['A'], ['a', 'b']), (['B'], ['x', 'y'])] : SecretMap).map Prod.snd)
      (([(['B'], ['x', 'y']), (['A'], ['a', 'b'])] : SecretMap).map Prod.snd) ∧
    maskSecrets ['a', 'b', ' ', 'x', 'y'] [(['A'], ['a', 'b']), (['B'], ['x', 'y'])] =
      maskSecrets ['a', 'b', ' ', 'x', 'y'] [(['B'], ['x', 'y']), (['A'], ['a', 'b'])] :=
  ⟨List.Perm.swap _ _ _,
    C3_order_amended _ _ _ (List.Perm.swap _ _ _) (by decide) (by decide)⟩

/-! ## Lemmas: byte length and the truncation loop -/

theorem byteLength_nil : byteLength [] = 0 := rfl

theorem byteLength_append (a b : List Char) :
    byteLength (a ++ b) = byteLength a + byteLength b := by
  simp [byteLength]

theorem byteLength_replicate (n : Nat) (c : Char) :
    byteLength (List.replicate n c) = n * (utf8Bytes c).length := by
  simp [byteLength, List.map_replicate, List.sum_replicate, smul_eq_mul]

theorem ne_nil_of_byteLength_pos {t : List Char} (h : 0 < byteLength t) : t ≠ [] := by
  intro h0
  subst h0
  simp [byteLength] at h

theorem truncLoopAux_succ (limit fuel : Nat) (t : List Char) :
    truncLoopAux limit (fuel + 1) t =
      if limit < byteLength t then truncLoopAux limit fuel (t.take (t.length - 1000))
      else t := rfl

theorem truncLoopAux_done {limit : Nat} {t : List Char} (h : byteLength t ≤ limit)
    (fuel : Nat) : truncLoopAux limit fuel t = t := by
  cases fuel with
  | zero => rfl
  | succ fuel => rw [truncLoopAux_succ, if_neg (not_lt.mpr h)]

theorem truncLoopAux_congr (limit : Nat) :
    ∀ (f1 f2 : Nat) (t : List Char), t.length ≤ f1 → t.length ≤ f2 →
      truncLoopAux limit f1 t = truncLoopAux limit f2 t := by
  intro f1
  induction f1 with
  | zero =>
    intro f2 t h1 h2
    have ht : t = [] := List.eq_nil_of_length_eq_zero (Nat.le_zero.mp h1)
    subst ht
    rw [truncLoopAux_done (by simp [byteLength_nil]) 0,
      truncLoopAux_done (by simp [byteLength_nil]) f2]
  | succ f ih =>
    intro f2 t h1 h2
    match f2, h2 with
    | 0, h2 =>
      have ht : t = [] := List.eq_nil_of_length_eq_zero (Nat.le_zero.mp h2)
      subst ht
      rw [truncLoopAux_done (by simp [byteLength_nil]) (f + 1),
        truncLoopAux_done (by simp [byteLength_nil]) 0]
    | g + 1, h2 =>
      rw [truncLoopAux_succ, truncLoopAux_succ]
      by_cases hc : limit < byteLength t
      · rw [if_pos hc, if_pos hc]
        have ht : t ≠ [] := ne_nil_of_byteLength_pos (Nat.lt_of_le_of_lt (Nat.zero_le _) hc)
        have htlen : 1 ≤ t.length := List.length_pos.mpr ht
        have htake : (t.take (t.length - 1000)).length ≤ t.length - 1 := by
          simp [List.length_take]
          omega
        exact ih g _ (by omega) (by omega)
      · rw [if_neg hc, if_neg hc]

theorem truncLoop_done {limit : Nat} {t : List Char} (h : byteLength t ≤ limit) :
    truncLoop limit t = t :=
  truncLoopAux_done h t.length

theorem truncLoop_eq_aux (limit fuel : Nat) (t : List Char) (h : t.length ≤ fuel) :
    truncLoopAux limit fuel t = truncLoop limit t :=
  truncLoopAux_congr limit fuel t.length t h le_rfl

theorem truncLoop_step {limit : Nat} {t : List Char} (h : limit < byteLength t) :
    truncLoop limit t = truncLoop limit (t.take (t.length - 1000)) := by
  have ht : t ≠ [] := ne_nil_of_byteLength_pos (Nat.lt_of_le_of_lt (Nat.zero_le _) h)
  match t, ht, h with
  | c :: t', _, h =>
    have hstart : truncLoop limit (c :: t') = truncLoopAux limit (t'.length + 1) (c :: t') := rfl
    rw [hstart, truncLoopAux_succ, if_pos h]
    apply truncLoop_eq_aux
    simp [List.length_take]

theorem truncLoopAux_byteLength_le (limit : Nat) :
    ∀ (fuel : Nat) (t : List Char), t.length ≤ fuel →
      byteLength (truncLoopAux limit fuel t) ≤ limit := by
  intro fuel
  induction fuel with
  | zero =>
    intro t h
    have ht : t = [] := List.eq_nil_of_length_eq_zero (Nat.le_zero.mp h)
    subst ht
    simp [truncLoopAux_done, byteLength_nil]
  | succ f ih =>
    intro t h
    rw [truncLoopAux_succ]
    by_cases hc : limit < byteLength t
    · rw [if_pos hc]
      have ht : t ≠ [] := ne_nil_of_byteLength_pos (Nat.lt_of_le_of_lt (Nat.zero_le _) hc)
      have htlen : 1 ≤ t.length := List.length_pos.mpr ht
      apply ih
      simp [List.length_take]
      omega
    · rw [if_neg hc]
      exact not_lt.mp hc

theorem truncLoop_byteLength_le (limit : Nat) (t : List Char) :
    byteLength (truncLoop limit t) ≤ limit :=
  truncLoopAux_byteLength_le limit t.length t le_rfl

theorem prefix_truncLoopAux (limit : Nat) :
    ∀ (fuel : Nat) (t : List Char), truncLoopAux limit fuel t <+: t := by
  intro fuel
  induction fuel with
  | zero => intro t; cases t <;> exact List.prefix_refl _
  | succ f ih =>
    intro t
    rw [truncLoopAux_succ]
    by_cases hc : limit < byteLength t
    · rw [if_pos hc]
      exact (ih _).trans (prefix_take _ t)
    · rw [if_neg hc]

theorem prefix_truncLoop (limit : Nat) (t : List Char) : truncLoop limit t <+: t :=
  prefix_truncLoopAux limit t.length t

/-! ## Claim C4 -/

/-- C4 (counterexample): the claim fails as stated.  On an input of
1048577 ASCII characters the loop removes 1000 characters at once and
keeps a 1047577-character prefix, while the largest prefix fitting
within `maxBytes` minus the 41-byte notice has 1048535 characters, so
the returned pair differs from the spec-side largest-prefix result. -/
theorem C4_truncation_counterexample :
    truncateOutput (List.replicate 1048577 'a') MAX_OUTPUT_BYTES ≠
      specTruncateOutput (List.replicate 1048577 'a') MAX_OUTPUT_BYTES := by
  have ha : (utf8Bytes 'a').length = 1 := by decide
  have hrep : ∀ n : Nat, byteLength (List.replicate n 'a') = n := fun n => by
    rw [byteLength_replicate, ha, Nat.mul_one]
  have hlimit : MAX_OUTPUT_BYTES - byteLength TRUNCATION_MESSAGE = 1048535 := by decide
  have hover : ¬ byteLength (List.replicate 1048577 'a') ≤ MAX_OUTPUT_BYTES := by
    rw [hrep]; decide
  have htake : (List.replicate 1048577 'a').take
      ((List.replicate 1048577 'a').length - 1000) = List.replicate 1047577 'a' := by
    rw [List.length_replicate, List.take_replicate]
    norm_num
  have hL : (truncateOutput (List.replicate 1048577 'a') MAX_OUTPUT_BYTES).1 =
      List.replicate 1047577 'a' ++ TRUNCATION_MESSAGE := by
    rw [truncateOutput, if_neg hover]
    rw [hlimit, truncLoop_step (by rw [hrep]; norm_num), htake,
      truncLoop_done (by rw [hrep]; norm_num)]
  have hR : 1048535 ≤ Nat.findGreatest
      (fun k => byteLength ((List.replicate 1048577 'a').take k) ≤
        MAX_OUTPUT_BYTES - byteLength TRUNCATION_MESSAGE)
      (List.replicate 1048577 'a').length := by
    apply Nat.le_findGreatest
    · rw [List.length_replicate]; norm_num
    · rw [List.take_replicate, hlimit]
      have : min 1048535 1048577 = 1048535 := by norm_num
      rw [this, hrep]
  have hRle := Nat.findGreatest_le
    (P := fun k => byteLength ((List.replicate 1048577 'a').take k) ≤
      MAX_OUTPUT_BYTES - byteLength TRUNCATION_MESSAGE)
    (List.replicate 1048577 'a').length
  intro h
  have h1 : (truncateOutput (List.replicate 1048577 'a') MAX_OUTPUT_BYTES).1.length =
      (specTruncateOutput (List.replicate 1048577 'a') MAX_OUTPUT_BYTES).1.length := by
    rw [h]
  rw [hL, specTruncateOutput, if_neg hover] at h1
  simp only [List.length_append, List.length_take, List.length_replicate] at h1 hR hRle
  omega

/-- C4 (amended): a stream at or below the 1 MiB maximum is returned
unchanged and not flagged; a stream over the maximum is returned as
some prefix of the text (obtained by removing 1000 characters at a
time) whose byte length fits within the maximum minus the byte length
of the truncation notice, with the notice appended — but not
necessarily the largest such prefix. -/
theorem C4_truncation_amended (text : List Char) :
    (byteLength text ≤ MAX_OUTPUT_BYTES →
      truncateOutput text MAX_OUTPUT_BYTES = (text, false)) ∧
    (MAX_OUTPUT_BYTES < byteLength text →
      ∃ p : List Char, p <+: text ∧
        byteLength p ≤ MAX_OUTPUT_BYTES - byteLength TRUNCATION_MESSAGE ∧
        truncateOutput text MAX_OUTPUT_BYTES = (p ++ TRUNCATION_MESSAGE, true)) := by
  constructor
  · intro h
    rw [truncateOutput, if_pos h]
  · intro h
    refine ⟨truncLoop (MAX_OUTPUT_BYTES - byteLength TRUNCATION_MESSAGE) text,
      prefix_truncLoop _ text, truncLoop_byteLength_le _ text, ?_⟩
    rw [truncateOutput, if_neg (not_le.mpr h)]

/-- C4 (witness): the amended claim applied to a small in-bounds stream
and to a 1048577-byte stream of `a` characters. -/
theorem C4_truncation_witness :
    (byteLength ['a'] ≤ MAX_OUTPUT_BYTES ∧
      truncateOutput ['a'] MAX_OUTPUT_BYTES = (['a'], false)) ∧
    (MAX_OUTPUT_BYTES < byteLength (List.replicate 1048577 'a') ∧
      ∃ p : List Char, p <+: List.replicate 1048577 'a' ∧
        byteLength p ≤ MAX_OUTPUT_BYTES - byteLength TRUNCATION_MESSAGE ∧
        truncateOutput (List.replicate 1048577 'a') MAX_OUTPUT_BYTES =
          (p ++ TRUNCATION_MESSAGE, true)) :=
  ⟨⟨by decide, (C4_truncation_amended ['a']).1 (by decide)⟩,
    ⟨by rw [byteLength_replicate]; decide,
      (C4_truncation_amended _).2 (by rw [byteLength_replicate]; decide)⟩⟩

/-! ## Lemmas: the UTF-16 model -/

theorem emojiUnits_zero : emojiUnits 0 = [] := rfl

theorem emojiUnits_succ (M : Nat) :
    emojiUnits (M + 1) = 0xD83D :: 0xDE00 :: emojiUnits M := by
  simp [emojiUnits, List.replicate_succ]

theorem emojiUnits_length (M : Nat) : (emojiUnits M).length = 2 * M := by
  induction M with
  | zero => rfl
  | succ M ih => rw [emojiUnits_succ]; simp [ih]; omega

theorem byteLength16_pair (rest : List Nat) :
    byteLength16 (0xD83D :: 0xDE00 :: rest) = 4 + byteLength16 rest := rfl

theorem byteLength16_emoji_append (tail : List Nat) :
    ∀ M : Nat, byteLength16 (emojiUnits M ++ tail) = 4 * M + byteLength16 tail := by
  intro M
  induction M with
  | zero => simp [emojiUnits_zero]
  | succ M ih =>
    rw [emojiUnits_succ, List.cons_append, List.cons_append, byteLength16_pair, ih]
    ring

theorem emojiUnits_take (k : Nat) :
    ∀ M : Nat, k < M → (emojiUnits M).take (2 * k + 1) = emojiUnits k ++ [0xD83D] := by
  induction k with
  | zero =>
    intro M hM
    match M, hM with
    | M' + 1, _ =>
      rw [emojiUnits_succ]
      simp [emojiUnits_zero]
  | succ k ih =>
    intro M hM
    match M, hM with
    | M' + 1, hM =>
      rw [emojiUnits_succ, emojiUnits_succ,
        show 2 * (k + 1) + 1 = (2 * k + 1) + 1 + 1 by ring]
      simp only [List.take_succ_cons]
      rw [ih M' (by omega)]
      simp

theorem ne_nil_of_byteLength16_pos {t : List Nat} (h : 0 < byteLength16 t) :
    t ≠ [] := by
  intro h0
  subst h0
  simp [byteLength16] at h

theorem truncLoop16Aux_succ (limit fuel : Nat) (t : List Nat) :
    truncLoop16Aux limit (fuel + 1) t =
      if limit < byteLength16 t then truncLoop16Aux limit fuel (t.take (t.length - 1000))
      else t := rfl

theorem truncLoop16Aux_done {limit : Nat} {t : List Nat} (h : byteLength16 t ≤ limit)
    (fuel : Nat) : truncLoop16Aux limit fuel t = t := by
  cases fuel with
  | zero => rfl
  | succ fuel => rw [truncLoop16Aux_succ, if_neg (not_lt.mpr h)]

theorem truncLoop16Aux_congr (limit : Nat) :
    ∀ (f1 f2 : Nat) (t : List Nat), t.length ≤ f1 → t.length ≤ f2 →
      truncLoop16Aux limit f1 t = truncLoop16Aux limit f2 t := by
  intro f1
  induction f1 with
  | zero =>
    intro f2 t h1 h2
    have ht : t = [] := List.eq_nil_of_length_eq_zero (Nat.le_zero.mp h1)
    subst ht
    rw [truncLoop16Aux_done (by simp [byteLength16]) 0,
      truncLoop16Aux_done (by simp [byteLength16]) f2]
  | succ f ih =>
    intro f2 t h1 h2
    match f2, h2 with
    | 0, h2 =>
      have ht : t = [] := List.eq_nil_of_length_eq_zero (Nat.le_zero.mp h2)
      subst ht
      rw [truncLoop16Aux_done (by simp [byteLength16]) (f + 1),
        truncLoop16Aux_done (by simp [byteLength16]) 0]
    | g + 1, h2 =>
      rw [truncLoop16Aux_succ, truncLoop16Aux_succ]
      by_cases hc : limit < byteLength16 t
      · rw [if_pos hc, if_pos hc]
        have ht : t ≠ [] :=
          ne_nil_of_byteLength16_pos (Nat.lt_of_le_of_lt (Nat.zero_le _) hc)
        have htlen : 1 ≤ t.length := List.length_pos.mpr ht
        have htake : (t.take (t.length - 1000)).length ≤ t.length - 1 := by
          simp [List.length_take]
          omega
        exact ih g _ (by omega) (by omega)
      · rw [if_neg hc, if_neg hc]

theorem truncLoop16_eq_aux (limit fuel : Nat) (t : List Nat) (h : t.length ≤ fuel) :
    truncLoop16Aux limit fuel t = truncLoop16 limit t :=
  truncLoop16Aux_congr limit fuel t.length t h le_rfl

theorem truncLoop16_done {limit : Nat} {t : List Nat} (h : byteLength16 t ≤ limit) :
    truncLoop16 limit t = t :=
  truncLoop16Aux_done h t.length

theorem truncLoop16_step {limit : Nat} {t : List Nat} (h : limit < byteLength16 t) :
    truncLoop16 limit t = truncLoop16 limit (t.take (t.length - 1000)) := by
  have ht : t ≠ [] := ne_nil_of_byteLength16_pos (Nat.lt_of_le_of_lt (Nat.zero_le _) h)
  match t, ht, h with
  | c :: t', _, h =>
    have hstart : truncLoop16 limit (c :: t') =
        truncLoop16Aux limit (t'.length + 1) (c :: t') := rfl
    rw [hstart, truncLoop16Aux_succ, if_pos h]
    apply truncLoop16_eq_aux
    simp [List.length_take]

theorem utf16DecodeStrict_pair (rest : List Nat) :
    utf16DecodeStrict (0xD83D :: 0xDE00 :: rest) =
      match utf16DecodeStrict rest with
      | some cs =>
        some (Char.ofNat (0x10000 + (0xD83D - 0xD800) * 0x400 + (0xDE00 - 0xDC00)) :: cs)
      | none => none := rfl

theorem utf16DecodeStrict_emoji_none {tail : List Nat}
    (h : utf16DecodeStrict tail = none) :
    ∀ k : Nat, utf16DecodeStrict (emojiUnits k ++ tail) = none := by
  intro k
  induction k with
  | zero => simpa [emojiUnits_zero] using h
  | succ k ih =>
    rw [emojiUnits_succ, List.cons_append, List.cons_append, utf16DecodeStrict_pair, ih]

theorem utf16DecodeStrict_emoji_ne_none {tail : List Nat}
    (h : utf16DecodeStrict tail ≠ none) :
    ∀ k : Nat, utf16DecodeStrict (emojiUnits k ++ tail) ≠ none := by
  intro k
  induction k with
  | zero => simpa [emojiUnits_zero] using h
  | succ k ih =>
    rw [emojiUnits_succ, List.cons_append, List.cons_append, utf16DecodeStrict_pair]
    match hrec : utf16DecodeStrict (emojiUnits k ++ tail) with
    | some cs => simp
    | none => exact absurd hrec ih

/-! ## Claim C5 -/

/-- C5 (code bug): `slice(0, -1000)` removes UTF-16 code units, so on a
well-formed stream of 262144 😀 characters followed by `a` (1048577
UTF-8 bytes) the shrink loop cuts between the two surrogates of a pair:
the truncated text ends in an unpaired high surrogate followed by the
truncation notice, and strict re-decoding of it fails, while the
original stream re-decodes fine — contradicting both the claim and the
code's own comment that it does not cut in the middle of a multi-byte
character. -/
theorem C5_truncation_splits_surrogate :
    utf16DecodeStrict
        ((truncateOutput16 (emojiUnits 262144 ++ [97]) MAX_OUTPUT_BYTES).1) = none ∧
    utf16DecodeStrict (emojiUnits 262144 ++ [97]) ≠ none := by
  have hbl : byteLength16 (emojiUnits 262144 ++ [97]) = 1048577 := by
    rw [byteLength16_emoji_append]; decide
  have hlimit : MAX_OUTPUT_BYTES - byteLength16 TRUNCATION_MESSAGE16 = 1048535 := by
    decide
  have hlen : (emojiUnits 262144 ++ [97]).length = 524289 := by
    rw [List.length_append, emojiUnits_length, List.length_singleton]
  have htake : (emojiUnits 262144 ++ [97]).take
      ((emojiUnits 262144 ++ [97]).length - 1000) = emojiUnits 261644 ++ [0xD83D] := by
    rw [hlen,
      show (524289 - 1000 : Nat) = 523289 by norm_num,
      List.take_append_of_le_length (by rw [emojiUnits_length]; norm_num),
      show (523289 : Nat) = 2 * 261644 + 1 by norm_num]
    exact emojiUnits_take 261644 262144 (by norm_num)
  have hfit : byteLength16 (emojiUnits 261644 ++ [0xD83D]) = 1046579 := by
    rw [byteLength16_emoji_append]; decide
  have hloop : truncLoop16 (MAX_OUTPUT_BYTES - byteLength16 TRUNCATION_MESSAGE16)
      (emojiUnits 262144 ++ [97]) = emojiUnits 261644 ++ [0xD83D] := by
    rw [hlimit, truncLoop16_step (by rw [hbl]; norm_num), htake,
      truncLoop16_done (by rw [hfit]; norm_num)]
  constructor
  · rw [truncateOutput16, if_neg (by rw [hbl]; decide)]
    show utf16DecodeStrict (truncLoop16 _ _ ++ TRUNCATION_MESSAGE16) = none
    rw [hloop, List.append_assoc]
    exact utf16DecodeStrict_emoji_none (by decide) 261644
  · exact utf16DecodeStrict_emoji_ne_none (by decide) 262144

/-! ## Claim C6 -/

/-- C6 (counterexample): the claim fails as stated.  For `timeoutMs = 0`
the spec formula `min(0 ?? 300000, 300000)` gives 0, but the code's
`args.timeout || DEFAULT_TIMEOUT_MS` treats 0 as falsy and uses
300000. -/
theorem C6_timeout_counterexample :
    effectiveTimeout (some 0) ≠ specEffectiveTimeout (some 0) := by decide

/-- C6 (amended): the effective timeout equals
`min(timeoutMs ?? 300000, 300000)` for every requested value except a
present zero; a zero timeout is treated like an absent one and yields
the 300000 ms default. -/
theorem C6_timeout_amended :
    (∀ t : Option Int, t ≠ some 0 → effectiveTimeout t = specEffectiveTimeout t) ∧
    effectiveTimeout (some 0) = DEFAULT_TIMEOUT_MS := by
  constructor
  · intro t ht
    match t with
    | none => rfl
    | some v =>
      have hv : ¬ v = 0 := fun h => ht (by rw [h])
      rw [effectiveTimeout, specEffectiveTimeout, if_neg hv]
      rfl
  · decide

/-- C6 (witness): the amended claim at the spec's own example,
`timeoutMs = 600000`, which is capped at 300000. -/
theorem C6_timeout_witness :
    (some (600000 : Int) ≠ some 0) ∧
    effectiveTimeout (some 600000) = specEffectiveTimeout (some 600000) :=
  ⟨by decide, C6_timeout_amended.1 (some 600000) (by decide)⟩

/-! ## Claim C7 -/

/-- C7 (counterexample): the claim fails as stated.  `secretsInjected`
is `Object.keys(secrets).length`; for a SecretMap with the single
empty-valued entry `A=`, it is 1 while the number of non-empty values
is 0. -/
theorem C7_count_counterexample :
    (assembleResponse (closeResult (some 0) [] [] 0 0 [(['A'], [])])
        [(['A'], [])]).secretsInjected ≠
      ([(['A'], [])] : SecretMap).countP (fun kv => !kv.2.isEmpty) := by decide

/-- C7 (amended): `secretsInjected` equals the total number of entries
of the fetched SecretMap, which coincides with the number of non-empty
values exactly when every value is non-empty; for an empty mapping the
count is 0 and the masking pass returns the output unchanged. -/
theorem C7_count_amended (secrets : SecretMap) (code : Option Int)
    (sout serr : List Char) (sb eb : Nat) (text : List Char) :
    ((assembleResponse (closeResult code sout serr sb eb secrets) secrets).secretsInjected =
        secrets.countP (fun kv => !kv.2.isEmpty) ↔ ∀ kv ∈ secrets, kv.2 ≠ []) ∧
    (assembleResponse (closeResult code sout serr sb eb []) []).secretsInjected = 0 ∧
    maskSecrets text [] = text := by
  refine ⟨?_, rfl, ?_⟩
  · show secrets.length = secrets.countP _ ↔ _
    constructor
    · intro h kv hkv
      have := List.countP_eq_length.mp h.symm kv hkv
      simpa using this
    · intro h
      symm
      exact List.countP_eq_length.mpr fun kv hkv => by simpa using h kv hkv
  · unfold maskSecrets maskSecretsWith
    split <;> rfl

/-- C7 (witness): the amended claim at a one-entry map whose value is
non-empty (counts agree) and at the empty text/map case. -/
theorem C7_count_witness :
    (assembleResponse (closeResult (some 0) [] [] 0 0 [(['A'], ['x'])])
        [(['A'], ['x'])]).secretsInjected =
      ([(['A'], ['x'])] : SecretMap).countP (fun kv => !kv.2.isEmpty) :=
  (C7_count_amended [(['A'], ['x'])] (some 0) [] [] 0 0 []).1.mpr (by decide)

/-! ## Claim C8 -/

/-- C8 (confirmed): a command that is empty after trimming produces the
validation error synchronously — the effect trace is just the error,
with no token read, no secret fetch and no spawn; a command that is
non-empty after trimming passes validation and proceeds to those
steps. -/
theorem C8_validation (command : List Char) :
    (jsTrim command = [] →
      injectRunEffects command = [Effect.validationError] ∧
      Effect.getToken ∉ injectRunEffects command ∧
      Effect.pullSecrets ∉ injectRunEffects command ∧
      Effect.spawnChild ∉ injectRunEffects command) ∧
    (jsTrim command ≠ [] →
      Effect.validationError ∉ injectRunEffects command ∧
      injectRunEffects command =
        [Effect.getToken, Effect.getRepository, Effect.pullSecrets,
          Effect.spawnChild]) := by
  constructor
  · intro h
    rw [injectRunEffects, if_pos (Or.inr h)]
    exact ⟨rfl, by decide, by decide, by decide⟩
  · intro h
    have hcmd : ¬ (command = [] ∨ jsTrim command = []) := by
      rintro (rfl | h2)
      · exact h rfl
      · exact h h2
    rw [injectRunEffects, if_neg hcmd]
    exact ⟨by decide, rfl⟩

/-- C8 (witness): the claim at the whitespace-only command `" \t"` and
at the command `ls`. -/
theorem C8_validation_witness :
    (jsTrim [' ', '\t'] = [] ∧
      injectRunEffects [' ', '\t'] = [Effect.validationError]) ∧
    (jsTrim ['l', 's'] ≠ [] ∧
      injectRunEffects ['l', 's'] =
        [Effect.getToken, Effect.getRepository, Effect.pullSecrets,
          Effect.spawnChild]) :=
  ⟨⟨by decide, ((C8_validation [' ', '\t']).1 (by decide)).1⟩,
    ⟨by decide, ((C8_validation ['l', 's']).2 (by decide)).2⟩⟩

/-! ## Claim C9 -/

/-- C9 (confirmed): a process that runs to completion yields a normal
assembled response: the error flag is set exactly when the exit code
(with a `null` code normalised to 1) is non-zero, and the response
carries that exit code and the truncated-then-masked streams. -/
theorem C9_nonzero_exit (code : Option Int) (stdout stderr : List Char)
    (sb eb : Nat) (secrets : SecretMap) :
    ((assembleResponse (closeResult code stdout stderr sb eb secrets) secrets).isError =
        true ↔ code.getD 1 ≠ 0) ∧
    (assembleResponse (closeResult code stdout stderr sb eb secrets) secrets).exitCode =
      code.getD 1 ∧
    (assembleResponse (closeResult code stdout stderr sb eb secrets) secrets).stdout =
      maskSecrets (truncateOutput stdout MAX_OUTPUT_BYTES).1 secrets ∧
    (assembleResponse (closeResult code stdout stderr sb eb secrets) secrets).stderr =
      maskSecrets (truncateOutput stderr MAX_OUTPUT_BYTES).1 secrets := by
  refine ⟨?_, rfl, rfl, rfl⟩
  simp [assembleResponse, closeResult]

/-- C9 (witness): the claim at exit code 2: the response is assembled
(not thrown) and flagged unsuccessful. -/
theorem C9_nonzero_exit_witness :
    (assembleResponse (closeResult (some 2) [] [] 0 0 []) []).isError = true :=
  (C9_nonzero_exit (some 2) [] [] 0 0 []).1.mpr (by decide)

/-! ## Claim C10 -/

/-- C10 (confirmed): an empty environment string is treated exactly
like an absent one — both resolve to the default environment
`development`. -/
theorem C10_default_environment :
    effectiveEnvironment (some []) = effectiveEnvironment none ∧
    effectiveEnvironment (some []) = defaultEnvironment := by decide

end KeywayMCP
